import Mathlib

/-!
Verification of the grbl-stream protocol core (src/index.js) against its
natural-language specification.

Modelling conventions:
- JavaScript strings are modelled as `List Char`; raw byte buffers (the
  framer input) as `List Nat` (byte values).  All protocol text is ASCII,
  so per-line byte/char identification is faithful.
- JavaScript `undefined` field values are modelled as `Option.none`.
- JavaScript numbers are modelled as `ℚ`; every numeric literal exercised
  by the claims is exactly representable as a binary double, so `ℚ`
  arithmetic agrees with the IEEE arithmetic the code performs on them.
- Fallible operations return `Except` / `Option`.
-/

namespace GrblModel

/-- JS `String.prototype.startsWith`: `startsWithL p s` is true when `p`
is an initial segment of `s`. -/
def startsWithL : List Char → List Char → Bool
  | [], _ => true
  | _ :: _, [] => false
  | p :: ps, c :: cs => p = c && startsWithL ps cs

/-- JS `String.prototype.endsWith` for the single-character suffixes the
code uses. -/
def endsWithL (p s : List Char) : Bool :=
  startsWithL p.reverse s.reverse

/-- JS `String.prototype.split` against a character class (used for the
`'|'` split and the `/:|,/` split in `status`).  Empty fragments are
kept, exactly as in JS. -/
def splitOnCh (p : Char → Bool) : List Char → List (List Char)
  | [] => [[]]
  | c :: cs =>
    if p c then [] :: splitOnCh p cs
    else
      match splitOnCh p cs with
      | [] => [[c]]
      | g :: gs => (c :: g) :: gs

/-- Decimal value of a digit string (used by the numeric parsers). -/
def digitsVal (ds : List Char) : Nat :=
  ds.foldl (fun acc c => acc * 10 + (c.toNat - 48)) 0

/-- The ASCII apostrophe, built by code point so that the banner literal
`Grbl <version> [ apostrophe $ apostrophe  for help]` can be spelled out. -/
def quoteCh : Char := Char.ofNat 39

/-- The literal tail of the boot banner: a space, an opening bracket,
an apostrophe-quoted dollar sign, then ` for help]`. -/
def helpSuffix : List Char :=
  (" [".toList) ++ [quoteCh, '$', quoteCh] ++ (" for help]".toList)

/-- `ProtocolError` (src/index.js): carries a human-readable expectation
message and the offending raw input.  The input is `none` when the JS
code passes `undefined` (e.g. `status` on an empty response). -/
structure PErr where
  msg : List Char
  input : Option (List Char)
deriving DecidableEq

/-- One row of the external error-code catalog (codes/error_codes.csv,
a collaborator loaded by `readCodes`): the columns used by the code. -/
structure ErrorRow where
  errCode : List Char
  errMessage : List Char
  errDescription : List Char
deriving DecidableEq

/-- `CommandError` (src/index.js): the fields stored by the constructor.
`errorMessage` / `errorDescription` are `none` when the JS code stores
`undefined` (catalog miss). -/
structure CommandErrorV where
  errorCode : List Char
  errorMessage : Option (List Char)
  errorDescription : Option (List Char)
deriving DecidableEq

/-- `CommandError.fromCode` (src/index.js lines 40-43):
`ERROR_CODES.find(error => error[Error Code] === code) || {}` followed by
field access; a catalog miss yields `undefined` (here `none`) fields. -/
def fromCode (catalog : List ErrorRow) (code : List Char) : CommandErrorV :=
  match catalog.find? (fun r => r.errCode == code) with
  | some row => ⟨code, some row.errMessage, some row.errDescription⟩
  | none => ⟨code, none, none⟩

/-- The message text of the version-format `ProtocolError` in `onversion`. -/
def versionErrMsg : List Char :=
  ("Expected version format Grbl <version>".toList) ++ helpSuffix

/-- The version-banner pattern of `onversion` (src/index.js line 63):
`^Grbl (\d+\.\d+[a-zA-Z]) \[apos\$apos for help\]$`.  Returns the captured
version token on a match, `none` otherwise.  The regex is deterministic
(maximal digit runs are forced because a shorter run would leave a digit
where a literal dot / letter is required), so this direct scanner is
equivalent to the backtracking regex. -/
def versionMatch (data : List Char) : Option (List Char) :=
  if startsWithL ("Grbl ".toList) data then
    let rest := data.drop 5
    let d1 := rest.takeWhile Char.isDigit
    if d1.isEmpty then none
    else
      match rest.drop d1.length with
      | '.' :: r2 =>
        let d2 := r2.takeWhile Char.isDigit
        if d2.isEmpty then none
        else
          match r2.drop d2.length with
          | c :: tail =>
            if c.isAlpha && tail = helpSuffix then
              some (d1 ++ '.' :: d2 ++ [c])
            else none
          | [] => none
      | _ => none
  else none

/-- The boot interpreter slots (`this._parse` in src/index.js): the
constructor starts at `onversion`, advances to `onheader`, then
`onmessage`. -/
inductive ParseState where
  | version
  | header
  | message
deriving DecidableEq

/-- Observable effect of one `onversion` call. `threw = true` records the
JS `TypeError` raised by `match[1]` when `match` is `null` (the code has
no `return` after `this.destroy(...)`), which aborts the call before the
`version` event is emitted and before `this._parse` is reassigned. -/
structure VStep where
  destroyed : Option PErr
  events : List (List Char)
  threw : Bool
  next : ParseState
deriving DecidableEq

/-- `onversion` (src/index.js lines 61-67): on a banner match, emit the
version and advance to `onheader`; on a mismatch, destroy the stream with
a `ProtocolError` carrying the offending line, then throw (see `VStep`),
leaving the interpreter slot unchanged. -/
def onversion (data : List Char) : VStep :=
  match versionMatch data with
  | some v => ⟨none, [v], false, ParseState.header⟩
  | none => ⟨some ⟨versionErrMsg, some data⟩, [], true, ParseState.version⟩

/-- `command` outbound framing (src/index.js line 230): the exact
characters pushed to the readable (outbound) side by
`this.push(cmd + LF)`. -/
def commandFrame (cmd : List Char) : List Char :=
  cmd ++ ['\n']

/-- `DELIMETER` (src/index.js line 14): the two bytes of CR LF used for
inbound framing. -/
def DELIMETER : List Nat := [13, 10]

/-! ## Settings decoder (src/index.js `settings`) -/

/-- One row of the external setting-code catalog (codes/setting_codes.csv,
a collaborator): the columns used by the code. -/
structure SettingRow where
  scode : List Char
  setting : List Char
  units : List Char
  sdescription : List Char
deriving DecidableEq

/-- The object built for one settings line: `code`/`value` from the regex
groups, the descriptive fields from the catalog (or `undefined`, here
`none`, on a miss). -/
structure SettingEntry where
  code : List Char
  setting : Option (List Char)
  units : Option (List Char)
  description : Option (List Char)
  value : List Char
deriving DecidableEq

/-- Catalog enrichment inside `settings` (src/index.js lines 101-110):
`SETTING_CODES.find(setting => setting.Code === code) || {}` and the
subsequent field reads. -/
def mkEntry (catalog : List SettingRow) (code value : List Char) : SettingEntry :=
  match catalog.find? (fun r => r.scode == code) with
  | some row => ⟨code, some row.setting, some row.units, some row.sdescription, value⟩
  | none => ⟨code, none, none, none, value⟩

/-- The settings-line pattern `^\$([^=]+)=([^ ]*)` (src/index.js line 99):
a dollar sign, then one or more non-`=` characters (the code), `=`, and a
maximal run of non-space characters (the value); trailing text after the
first space is ignored, as the regex is unanchored on the right. -/
def parseSettingLine (line : List Char) : Option (List Char × List Char) :=
  match line with
  | '$' :: rest =>
    let code := rest.takeWhile (fun c => c ≠ '=')
    if code.isEmpty then none
    else
      match rest.drop code.length with
      | '=' :: after => some (code, after.takeWhile (fun c => c ≠ ' '))
      | _ => none
  | _ => none

/-- The message of the settings-format `ProtocolError`. -/
def settingsErrMsg : List Char := "Expected settings format $x=val".toList

/-- The body of `settings` (src/index.js lines 95-117) applied to the
response lines: each line runs through the settings regex; the first
non-matching line aborts the whole call with a `ProtocolError` carrying
that line (JS `map` evaluates in order and throws). -/
def settingsDecode (catalog : List SettingRow) : List (List Char) → Except PErr (List SettingEntry)
  | [] => Except.ok []
  | l :: ls =>
    match parseSettingLine l with
    | none => Except.error ⟨settingsErrMsg, some l⟩
    | some (c, v) =>
      match settingsDecode catalog ls with
      | Except.ok es => Except.ok (mkEntry catalog c v :: es)
      | Except.error e => Except.error e

/-! ## Status decoder (src/index.js `status`) -/

/-- JS `parseInt(s, 10)` restricted to what the code feeds it: optional
sign, then a maximal digit prefix; `NaN` (here `none`) when no digit is
found.  (Leading-whitespace trimming never fires on the `status` split
fragments, and radix handling beyond base 10 is not exercised.) -/
def parseIntJS (s : List Char) : Option Int :=
  let sg : Int := match s with
    | '-' :: _ => -1
    | _ => 1
  let rest := match s with
    | '-' :: r => r
    | '+' :: r => r
    | r => r
  let ds := rest.takeWhile Char.isDigit
  if ds.isEmpty then none else some (sg * (digitsVal ds : Int))

/-- Exponent suffix of a JS decimal literal: `e`/`E` already consumed;
if no digits follow, the exponent part is not part of the longest valid
prefix and contributes 0. -/
def parseExp (r : List Char) : Int :=
  let sg : Int := match r with
    | '-' :: _ => -1
    | _ => 1
  let rr := match r with
    | '-' :: t => t
    | '+' :: t => t
    | t => t
  let ds := rr.takeWhile Char.isDigit
  if ds.isEmpty then 0 else sg * (digitsVal ds : Int)

/-- Powers of ten (kept in `Nat` so that rational values can be built
with `mkRat`, which the kernel evaluates directly). -/
def pow10 : Nat → Nat
  | 0 => 1
  | n + 1 => 10 * pow10 n

/-- JS `parseFloat` on the decimal literals that occur in status reports:
optional sign, integer digits, optional fraction, optional exponent;
`NaN` (here `none`) when no digit is found in the mantissa.  The value
`sign * (ip.fp) * 10^expo` is built as a normalized rational via
`mkRat`.  (The `Infinity` form and leading-whitespace trimming are not
exercised by the status grammar.) -/
def parseFloatQ (s : List Char) : Option ℚ :=
  let sg : Int := match s with
    | '-' :: _ => -1
    | _ => 1
  let rest := match s with
    | '-' :: r => r
    | '+' :: r => r
    | r => r
  let ip := rest.takeWhile Char.isDigit
  let rest2 := rest.drop ip.length
  let fp := match rest2 with
    | '.' :: r => r.takeWhile Char.isDigit
    | _ => []
  let rest3 := match rest2 with
    | '.' :: r => r.drop fp.length
    | r => r
  if ip.isEmpty && fp.isEmpty then none
  else
    let base : Int := sg * ((digitsVal ip * pow10 fp.length + digitsVal fp : Nat) : Int)
    let expo : Int := match rest3 with
      | 'e' :: r => parseExp r
      | 'E' :: r => parseExp r
      | _ => 0
    if 0 ≤ expo then some (mkRat (base * ((pow10 expo.toNat : Nat) : Int)) (pow10 fp.length))
    else some (mkRat base (pow10 fp.length * pow10 (-expo).toNat))

/-- An `{x, y, z}` position object; each member is `none` when the JS
value is `NaN` (missing or unparsable sub-field). -/
structure Coord3 where
  x : Option ℚ
  y : Option ℚ
  z : Option ℚ
deriving DecidableEq

/-- The `Bf` segment payload. -/
structure BufferState where
  plannerBlocks : Option Int
  rxBytes : Option Int
deriving DecidableEq

/-- The `FS` segment payload. -/
structure FeedSpeed where
  feedRate : Option Int
  spindle : Option Int
deriving DecidableEq

/-- The `Ov` segment payload. -/
structure OverrideValues where
  feed : Option Int
  rapids : Option Int
  spindle : Option Int
deriving DecidableEq

/-- The decoded machine status.  An outer `none` means the segment never
appeared; for `pinState` the inner option mirrors the JS value assigned
(`a` may itself be `undefined` when the segment has no `:` part). -/
structure MachineStatus where
  state : List Char
  machinePosition : Option Coord3 := none
  workCoordinateOffset : Option Coord3 := none
  buffer : Option BufferState := none
  feedAndSpeed : Option FeedSpeed := none
  pinState : Option (Option (List Char)) := none
  overrideValues : Option OverrideValues := none
deriving DecidableEq

/-- The `[type, a, b, c]` destructuring key of one status segment:
first fragment of the `/:|,/` split. -/
def segKey (seg : List Char) : List Char :=
  (splitOnCh (fun ch => ch = ':' || ch = ',') seg).headD []

/-- The segment keys the `switch` in `status` recognizes. -/
def recognizedKeys : List (List Char) :=
  [("MPos".toList), ("WCO".toList), ("Bf".toList), ("FS".toList),
   ("Pn".toList), ("Ov".toList)]

/-- One iteration of the `segments.forEach` switch in `status`
(src/index.js lines 131-168): split the segment on `/:|,/`, destructure
`[type, a, b, c]`, and populate the matching field; unknown keys fall
through the switch and leave the result untouched. -/
def applySegment (r : MachineStatus) (seg : List Char) : MachineStatus :=
  let parts := splitOnCh (fun ch => ch = ':' || ch = ',') seg
  let ty := parts.headD []
  let a := parts.get? 1
  let b := parts.get? 2
  let c := parts.get? 3
  let floats : Coord3 := ⟨a.bind parseFloatQ, b.bind parseFloatQ, c.bind parseFloatQ⟩
  let ints2 : BufferState := ⟨a.bind parseIntJS, b.bind parseIntJS⟩
  let fs2 : FeedSpeed := ⟨a.bind parseIntJS, b.bind parseIntJS⟩
  let ov3 : OverrideValues := ⟨a.bind parseIntJS, b.bind parseIntJS, c.bind parseIntJS⟩
  if ty = ("MPos".toList) then { r with machinePosition := some floats }
  else if ty = ("WCO".toList) then { r with workCoordinateOffset := some floats }
  else if ty = ("Bf".toList) then { r with buffer := some ints2 }
  else if ty = ("FS".toList) then { r with feedAndSpeed := some fs2 }
  else if ty = ("Pn".toList) then { r with pinState := some a }
  else if ty = ("Ov".toList) then { r with overrideValues := some ov3 }
  else r

/-- The message of the status-format `ProtocolError`. -/
def statusErrMsg : List Char := "Expected status format".toList

/-- `status` (src/index.js lines 119-179) applied to the command response:
pop the last line; require it to be wrapped in angle brackets; split the
interior on `|`; the first segment is the state token and every segment
(including the first) runs through the switch. -/
def statusDecode (resp : List (List Char)) : Except PErr MachineStatus :=
  match resp.getLast? with
  | none => Except.error ⟨statusErrMsg, none⟩
  | some s =>
    if s.isEmpty || !startsWithL (['<']) s || !endsWithL (['>']) s then
      Except.error ⟨statusErrMsg, some s⟩
    else
      let segments := splitOnCh (fun ch => ch = '|') ((s.drop 1).dropLast)
      Except.ok (segments.foldl applySegment { state := segments.headD [] })

/-! ## Position command (src/index.js `position`, `formatCoordinate`) -/

/-- JS `Number.prototype.toFixed(1)` on the exactly-representable values
the claims exercise: extract the sign, pick the integer `n` with `n / 10`
closest to the magnitude (ties to the larger `n`, i.e.
`n = ⌊10|q| + 1/2⌋`, computed here as `(20·|num| + den) / (2·den)` in
`Nat`), and print `n` with a decimal point before its last digit. -/
def toFixed1 (q : ℚ) : List Char :=
  let n : Nat := (20 * q.num.natAbs + q.den) / (2 * q.den)
  (if q.num < 0 then ['-'] else []) ++
    Nat.toDigits 10 (n / 10) ++ '.' :: Nat.toDigits 10 (n % 10)

/-- `formatCoordinate` (src/index.js lines 26-28): `undefined` (here
`none`) when the coordinate is `null`/`undefined`, otherwise the axis
letter followed by the value to one decimal place. -/
def formatCoordinate (axis : Char) (coord : Option ℚ) : Option (List Char) :=
  coord.map (fun q => axis :: toFixed1 q)

/-- The command text built by `position` (src/index.js lines 209-225):
format the three axes, `filter(Boolean)` the `undefined` slots away, and
join with single spaces. -/
def positionCmd (x y z : Option ℚ) : List Char :=
  List.intercalate ([' '])
    ([formatCoordinate 'X' x, formatCoordinate 'Y' y,
      formatCoordinate 'Z' z].filterMap id)

/-- The spec-side reading of `position` (spec section 6): emit only the
axes provided, each as the axis letter followed by the value to one
decimal place, space-joined in X, Y, Z order. -/
def positionSpec (x y z : Option ℚ) : List Char :=
  List.intercalate ([' '])
    (([('X', x), ('Y', y), ('Z', z)]).filterMap
      (fun p => p.2.map (fun q => p.1 :: toFixed1 q)))

/-! ## Line framer (src/index.js `_write`) -/

/-- `buffer.indexOf(DELIMETER)`: index of the first occurrence of the
CR LF byte pair, `none` when absent. -/
def findDelim : List Nat → Option Nat
  | [] => none
  | [_] => none
  | a :: b :: rest =>
    if a = 13 && b = 10 then some 0
    else (findDelim (b :: rest)).map (fun n => n + 1)

/-- The `while` loop of `_write` (src/index.js lines 245-249), with fuel:
repeatedly find the delimiter, emit the bytes before it as a line when
non-empty, and continue after the delimiter; the final buffer is the
delimiter-free remainder.  Each iteration consumes at least two bytes,
so `b.length` fuel always suffices. -/
def extractLinesF : Nat → List Nat → List (List Nat) × List Nat
  | 0, b => ([], b)
  | fuel + 1, b =>
    match findDelim b with
    | none => ([], b)
    | some i =>
      let line := b.take i
      let p := extractLinesF fuel (b.drop (i + 2))
      ((if line.isEmpty then p.1 else line :: p.1), p.2)

/-- One `_write` call on buffer `b`: the dispatched lines (in order) and
the retained remainder. -/
def extractLines (b : List Nat) : List (List Nat) × List Nat :=
  extractLinesF b.length b

/-- Feeding a sequence of chunks through `_write` one at a time, starting
from retained buffer `buf`: `this._buffer` is prepended to each incoming
chunk (src/index.js line 242). -/
def feedChunks : List Nat → List (List Nat) → List (List Nat) × List Nat
  | buf, [] => ([], buf)
  | buf, c :: cs =>
    let p := extractLines (buf ++ c)
    let q := feedChunks p.2 cs
    (p.1 ++ q.1, q.2)

/-! ## Command response collection (src/index.js `_ok`) -/

/-- What one inbound message line does to a pending command (the
`onmessage` closure in `_ok`, src/index.js lines 257-266). -/
inductive OkAction where
  | resolveA (result : List (List Char))
  | rejectA (err : CommandErrorV)
  | continueA (lines : List (List Char))
deriving DecidableEq

/-- Classification of one message line while a command is pending:
exactly `ok` resolves with the buffer collected so far; a line starting
with `error:` rejects with `CommandError.fromCode` of the remainder;
anything else is appended to the buffer. -/
def okStep (catalog : List ErrorRow) (lines : List (List Char)) (data : List Char) : OkAction :=
  if data = ("ok".toList) then OkAction.resolveA lines
  else if startsWithL ("error:".toList) data then
    OkAction.rejectA (fromCode catalog (data.drop 6))
  else OkAction.continueA (lines ++ [data])

/-- Running `_ok` over a message sequence with accumulator `lines`:
`none` when no terminal marker arrives (the promise never settles),
otherwise the first settlement. -/
def runOkAux (catalog : List ErrorRow) (lines : List (List Char)) :
    List (List Char) → Option (Except CommandErrorV (List (List Char)))
  | [] => none
  | d :: ds =>
    match okStep catalog lines d with
    | OkAction.resolveA r => some (Except.ok r)
    | OkAction.rejectA e => some (Except.error e)
    | OkAction.continueA ls => runOkAux catalog ls ds

/-- `_ok` from a fresh listener (empty collected buffer). -/
def runOkC (catalog : List ErrorRow) (msgs : List (List Char)) :
    Option (Except CommandErrorV (List (List Char))) :=
  runOkAux catalog [] msgs

/-! ## Listener lifecycle (src/index.js `_ok`, claim C10) -/

deriving instance DecidableEq for Except

/-- The state owned by one `_ok` message listener: the collected buffer
plus the settlement state of its promise (`none` while pending). -/
structure Listener where
  lines : List (List Char)
  settled : Option (Except CommandErrorV (List (List Char)))
deriving DecidableEq

/-- Settling a promise is a no-op once it is already settled. -/
def settleL (l : Listener) (o : Except CommandErrorV (List (List Char))) : Listener :=
  if l.settled.isSome then l else { l with settled := some o }

/-- One inbound message line delivered to an `_ok` listener: `none` means
the listener removed itself from the stream.  Only the `ok` branch calls
`removeListener` (src/index.js lines 258-260); the `error:` branch
rejects but leaves the listener subscribed. -/
def listenerStep (catalog : List ErrorRow) (l : Listener) (data : List Char) : Option Listener :=
  if data = ("ok".toList) then none
  else if startsWithL ("error:".toList) data then
    some (settleL l (Except.error (fromCode catalog (data.drop 6))))
  else some { l with lines := l.lines ++ [data] }

/-- Delivering a message sequence to a possibly-removed listener. -/
def runListener (catalog : List ErrorRow) (l : Option Listener)
    (msgs : List (List Char)) : Option Listener :=
  msgs.foldl (fun acc d => acc.bind (fun x => listenerStep catalog x d)) l

/-! ## Command serialization (src/index.js `command`, claim C4)

The mutex (`mutexify/promise`) is an external dependency, not part of
src/.  Modelled from the spec: acquisition order equals submission order
(queued, fair, first-come-first-served), and release hands the lock to
the head of the wait queue.  `command` itself (src/index.js lines
227-237) acquires the lock, pushes the command bytes, awaits `_ok`, and
releases in a `finally`; that structure is mirrored here as a transition
system whose events record writes and settlements. -/

/-- Observable events of the correlator: command `c`'s bytes were pushed;
command `c`'s response settled (resolved or rejected). -/
inductive Ev where
  | wrote (c : Nat)
  | settled (c : Nat)
deriving DecidableEq

/-- External stimuli: a caller submits command `c` (calls `command`), or
one framed line arrives from the device. -/
inductive SysStep where
  | submit (c : Nat)
  | recv (line : List Char)
deriving DecidableEq

/-- Correlator state: the FIFO wait queue of submitted commands, the
current lock holder with its collected response lines, and the event
log. -/
structure Sys where
  waiting : List Nat
  holder : Option (Nat × List (List Char))
  log : List Ev
deriving DecidableEq

/-- The lock holder as a (zero- or one-element) list. -/
def holderIds (s : Sys) : List Nat :=
  match s.holder with
  | none => []
  | some (c, _) => [c]

/-- Release after command `c` settles: the head of the wait queue (if
any) acquires the lock and immediately writes its bytes. -/
def admitNext (s : Sys) (c : Nat) : Sys :=
  match s.waiting with
  | [] => { waiting := [], holder := none, log := s.log ++ [Ev.settled c] }
  | d :: rest =>
    { waiting := rest, holder := some (d, []),
      log := s.log ++ [Ev.settled c, Ev.wrote d] }

/-- One transition: a submission acquires the free lock (writing at
once) or queues; an inbound line, when a command is pending, runs the
`_ok` classification — a terminal marker settles the holder and admits
the next waiter, any other line is collected. -/
def sysStep (catalog : List ErrorRow) (s : Sys) : SysStep → Sys
  | SysStep.submit c =>
    match s.holder with
    | none => { s with holder := some (c, []), log := s.log ++ [Ev.wrote c] }
    | some _ => { s with waiting := s.waiting ++ [c] }
  | SysStep.recv line =>
    match s.holder with
    | none => s
    | some (c, ls) =>
      match okStep catalog ls line with
      | OkAction.continueA ls2 => { s with holder := some (c, ls2) }
      | _ => admitNext s c

/-- Running the correlator from the idle steady state. -/
def sysRun (catalog : List ErrorRow) (steps : List SysStep) : Sys :=
  steps.foldl (sysStep catalog) ⟨[], none, []⟩

/-- The commands submitted by a stimulus sequence, in order. -/
def submits (steps : List SysStep) : List Nat :=
  steps.filterMap (fun st =>
    match st with
    | SysStep.submit c => some c
    | SysStep.recv _ => none)

/-- The event-log footprint of a fully processed command list:
`wrote c` immediately followed by `settled c`, for each in order. -/
def pairsFlat (cs : List Nat) : List Ev :=
  cs.flatMap (fun c => [Ev.wrote c, Ev.settled c])

/-- Correlator invariant: the log is an alternation of write/settle pairs
for the completed commands followed by the pending write of the holder;
completed, holder and waiting commands concatenate to the submission
order; and a free lock has an empty wait queue. -/
def SysInv (subs : List Nat) (s : Sys) : Prop :=
  ∃ completed : List Nat,
    s.log = pairsFlat completed ++ (holderIds s).map Ev.wrote
    ∧ completed ++ holderIds s ++ s.waiting = subs
    ∧ (s.holder = none → s.waiting = [])

/-! ## Helper lemmas -/

theorem startsWithL_self_append (p l : List Char) : startsWithL p (p ++ l) = true := by
  induction p with
  | nil => rfl
  | cons c cs ih => simp [startsWithL, ih]

theorem err_append_ne_ok (c : List Char) : (("error:".toList) ++ c) ≠ ("ok".toList) := by
  intro h
  have hlen := congrArg List.length h
  simp [List.length_append] at hlen

theorem err_append_drop (c : List Char) : (("error:".toList) ++ c).drop 6 = c := rfl

theorem okStep_ordinary (catalog : List ErrorRow) (acc : List (List Char)) (p : List Char)
    (h1 : p ≠ ("ok".toList)) (h2 : startsWithL ("error:".toList) p = false) :
    okStep catalog acc p = OkAction.continueA (acc ++ [p]) := by
  unfold okStep
  rw [if_neg h1, if_neg (by rw [h2]; exact Bool.false_ne_true)]

theorem okStep_err (catalog : List ErrorRow) (lines : List (List Char)) (c : List Char) :
    okStep catalog lines (("error:".toList) ++ c) = OkAction.rejectA (fromCode catalog c) := by
  unfold okStep
  rw [if_neg (err_append_ne_ok c), if_pos (startsWithL_self_append ("error:".toList) c),
    err_append_drop]

theorem runOkAux_ordinary (catalog : List ErrorRow) (pre : List (List Char)) :
    ∀ (acc rest : List (List Char)),
      (∀ l ∈ pre, l ≠ ("ok".toList) ∧ startsWithL ("error:".toList) l = false) →
      runOkAux catalog acc (pre ++ rest) = runOkAux catalog (acc ++ pre) rest := by
  induction pre with
  | nil => intro acc rest _; simp
  | cons p ps ih =>
    intro acc rest h
    have hp := h p (by simp)
    have hrec := ih (acc ++ [p]) rest (fun l hl => h l (by simp [hl]))
    calc runOkAux catalog acc ((p :: ps) ++ rest)
        = runOkAux catalog (acc ++ [p]) (ps ++ rest) := by
          rw [List.cons_append]
          show (match okStep catalog acc p with
            | OkAction.resolveA r => some (Except.ok r)
            | OkAction.rejectA e => some (Except.error e)
            | OkAction.continueA ls => runOkAux catalog ls (ps ++ rest)) = _
          rw [okStep_ordinary catalog acc p hp.1 hp.2]
      _ = runOkAux catalog ((acc ++ [p]) ++ ps) rest := hrec
      _ = runOkAux catalog (acc ++ p :: ps) rest := by simp

theorem runOkC_resolves (catalog : List ErrorRow) (pre rest : List (List Char))
    (h : ∀ l ∈ pre, l ≠ ("ok".toList) ∧ startsWithL ("error:".toList) l = false) :
    runOkC catalog (pre ++ ("ok".toList) :: rest) = some (Except.ok pre) := by
  unfold runOkC
  rw [runOkAux_ordinary catalog pre [] (("ok".toList) :: rest) h, List.nil_append]
  show (match okStep catalog pre ("ok".toList) with
    | OkAction.resolveA r => some (Except.ok r)
    | OkAction.rejectA e => some (Except.error e)
    | OkAction.continueA ls => runOkAux catalog ls rest) = _
  have : okStep catalog pre ("ok".toList) = OkAction.resolveA pre := by
    unfold okStep
    rw [if_pos rfl]
  rw [this]

theorem runOkC_rejects (catalog : List ErrorRow) (pre rest : List (List Char)) (c : List Char)
    (h : ∀ l ∈ pre, l ≠ ("ok".toList) ∧ startsWithL ("error:".toList) l = false) :
    runOkC catalog (pre ++ (("error:".toList) ++ c) :: rest) =
      some (Except.error (fromCode catalog c)) := by
  unfold runOkC
  rw [runOkAux_ordinary catalog pre [] ((("error:".toList) ++ c) :: rest) h, List.nil_append]
  show (match okStep catalog pre (("error:".toList) ++ c) with
    | OkAction.resolveA r => some (Except.ok r)
    | OkAction.rejectA e => some (Except.error e)
    | OkAction.continueA ls => runOkAux catalog ls rest) = _
  rw [okStep_err]

/-! ## Claim C1 -/

/-- Claim C1, counterexample: `command` does not terminate the outbound
line with the two-byte CR LF delimiter — for command text `?` the pushed
characters are not `?` followed by CR LF (they are `?` followed by a
bare LF). -/
theorem c1_crlf_counterexample :
    ¬ (commandFrame ("?".toList) = ("?".toList) ++ ('\r' :: '\n' :: [])) := by
  decide

/-- Claim C1 as amended: for every command text `t`, `command(t)` writes
exactly the characters of `t` followed by a single LF — the first
`t.length` written characters are `t` and the remainder is exactly
`[LF]`, so there is no other framing (and in particular no CR). -/
theorem c1_amended_lf_framing (t : List Char) :
    (commandFrame t).take t.length = t
    ∧ (commandFrame t).drop t.length = ['\n']
    ∧ (commandFrame t).length = t.length + 1 := by
  refine ⟨?_, ?_, ?_⟩
  · simp [commandFrame]
  · simp [commandFrame]
  · simp [commandFrame]

/-! ## Claim C2 -/

/-- Claim C2, counterexample: with a catalog lacking code `9`, a pending
command receiving `error:9` is rejected with `CommandError.fromCode`,
whose message and description fields are `undefined` (`none`), not empty
strings — refuting the claimed empty-string fallback. -/
theorem c2_empty_string_counterexample :
    runOkC [] [(("error:".toList) ++ ("9".toList))] =
        some (Except.error (fromCode [] ("9".toList)))
    ∧ (fromCode [] ("9".toList)).errorMessage ≠ some []
    ∧ (fromCode [] ("9".toList)).errorDescription ≠ some [] := by
  refine ⟨?_, by decide, by decide⟩
  simpa using runOkC_rejects [] [] [] ("9".toList) (by simp)

/-- Claim C2 as amended: a collected line beginning with `error:` rejects
the command with a `CommandError` whose code is the remainder of the
line; when the catalog has an entry for that code the message and
description are the entry text, and when it has none they are absent
(`undefined`), not empty strings. -/
theorem c2_amended_reject_fields (catalog : List ErrorRow) (pre rest : List (List Char))
    (c : List Char)
    (h : ∀ l ∈ pre, l ≠ ("ok".toList) ∧ startsWithL ("error:".toList) l = false) :
    runOkC catalog (pre ++ (("error:".toList) ++ c) :: rest) =
        some (Except.error (fromCode catalog c))
    ∧ (∀ row, List.find? (fun r => r.errCode == c) catalog = some row →
        fromCode catalog c = ⟨c, some row.errMessage, some row.errDescription⟩)
    ∧ (List.find? (fun r => r.errCode == c) catalog = none →
        fromCode catalog c = ⟨c, none, none⟩) := by
  refine ⟨runOkC_rejects catalog pre rest c h, ?_, ?_⟩
  · intro row hrow
    simp [fromCode, hrow]
  · intro hnone
    simp [fromCode, hnone]

/-- Witness for C2 as amended: a concrete catalog containing code `9`
and the message sequence `x`, `error:9`. -/
theorem c2_amended_witness :
    runOkC [⟨("9".toList), ("m".toList), ("d".toList)⟩]
        ([("x".toList)] ++ (("error:".toList) ++ ("9".toList)) :: []) =
      some (Except.error (fromCode [⟨("9".toList), ("m".toList), ("d".toList)⟩] ("9".toList))) :=
  (c2_amended_reject_fields [⟨("9".toList), ("m".toList), ("d".toList)⟩]
    [("x".toList)] [] ("9".toList) (by decide)).1

/-! ## Claim C3 -/

/-- Claim C3: in the `AwaitingVersion` state, a line that does not match
the banner pattern destroys the stream with a `ProtocolError` carrying
the offending line, emits no event, and leaves the boot interpreter in
the version state (the call aborts before `this._parse` is reassigned). -/
theorem c3_banner_mismatch (data : List Char) (h : versionMatch data = none) :
    (onversion data).destroyed = some ⟨versionErrMsg, some data⟩
    ∧ (onversion data).next = ParseState.version
    ∧ (onversion data).events = [] := by
  simp [onversion, h]

/-- Witness for C3: the malformed banner `Grbl bogus`. -/
theorem c3_banner_witness :
    (onversion ("Grbl bogus".toList)).destroyed =
        some ⟨versionErrMsg, some ("Grbl bogus".toList)⟩
    ∧ (onversion ("Grbl bogus".toList)).next = ParseState.version
    ∧ (onversion ("Grbl bogus".toList)).events = [] :=
  c3_banner_mismatch ("Grbl bogus".toList) (by decide)

/-! ## Claim C6 -/

/-- Claim C6: while a command is pending, ordinary lines are collected
and waiting continues; a line exactly `ok` resolves with precisely the
ordinary lines collected so far (never containing the marker itself);
a line beginning with `error:` rejects the command. -/
theorem c6_line_classification (catalog : List ErrorRow) (pre rest : List (List Char))
    (c : List Char)
    (h : ∀ l ∈ pre, l ≠ ("ok".toList) ∧ startsWithL ("error:".toList) l = false) :
    runOkC catalog (pre ++ ("ok".toList) :: rest) = some (Except.ok pre)
    ∧ runOkC catalog (pre ++ (("error:".toList) ++ c) :: rest) =
        some (Except.error (fromCode catalog c))
    ∧ ("ok".toList) ∉ pre := by
  refine ⟨runOkC_resolves catalog pre rest h, runOkC_rejects catalog pre rest c h, ?_⟩
  intro hmem
  exact (h _ hmem).1 rfl

/-- Witness for C6: two ordinary lines followed by `ok` resolve with
exactly those two lines. -/
theorem c6_witness :
    runOkC [] ([("a".toList), ("b".toList)] ++ ("ok".toList) :: []) =
        some (Except.ok [("a".toList), ("b".toList)])
    ∧ ("ok".toList) ∉ [("a".toList), ("b".toList)] :=
  ⟨(c6_line_classification [] [("a".toList), ("b".toList)] [] [] (by decide)).1,
   (c6_line_classification [] [("a".toList), ("b".toList)] [] [] (by decide)).2.2⟩

/-! ## Claim C9 -/

/-- Claim C9: `position` issues exactly one command containing only the
axes present, each as the axis letter followed by the value to one
decimal place, space-joined in X, Y, Z order; with no axes the command
text is empty; and `position({x: -100, y: -100})` issues
`X-100.0 Y-100.0`. -/
theorem c9_position_formatting :
    (∀ x y z : Option ℚ, positionCmd x y z = positionSpec x y z)
    ∧ positionCmd (some (-100)) (some (-100)) none = ("X-100.0 Y-100.0".toList)
    ∧ positionCmd none none none = [] := by
  refine ⟨?_, by decide, rfl⟩
  intro x y z
  cases x <;> cases y <;> cases z <;> rfl

/-! ## Claim C10 -/

/-- Claim C10, counterexample: a listener whose command was rejected by
`error:9` is removed from the stream by the next `ok` line — it does not
stay subscribed for the lifetime of the connection, so it misses every
line after that `ok`. -/
theorem c10_lifetime_counterexample :
    runListener [] (some ⟨[], none⟩) [(("error:".toList) ++ ("9".toList)), ("ok".toList)] =
      none := by
  decide

/-- Claim C10 as amended: the `error:` rejection path does not remove the
listener (only the `ok` path does), so after a rejection the listener
stays subscribed and keeps receiving lines — but only until the next
line exactly equal to `ok`, which removes it. -/
theorem c10_amended_listener (catalog : List ErrorRow) (l : Listener) (c d : List Char)
    (hd : d ≠ ("ok".toList)) (hord : startsWithL ("error:".toList) d = false) :
    listenerStep catalog l (("error:".toList) ++ c) =
        some (settleL l (Except.error (fromCode catalog c)))
    ∧ listenerStep catalog l d = some { l with lines := l.lines ++ [d] }
    ∧ listenerStep catalog l ("ok".toList) = none := by
  refine ⟨?_, ?_, rfl⟩
  · unfold listenerStep
    rw [if_neg (err_append_ne_ok c), if_pos (startsWithL_self_append ("error:".toList) c),
      err_append_drop]
  · unfold listenerStep
    rw [if_neg hd, if_neg (by rw [hord]; exact Bool.false_ne_true)]

/-- Witness for C10 as amended, at a fresh listener, code `9` and
ordinary line `x`. -/
theorem c10_amended_witness :
    listenerStep [] ⟨[], none⟩ (("error:".toList) ++ ("9".toList)) =
        some (settleL ⟨[], none⟩ (Except.error (fromCode [] ("9".toList))))
    ∧ listenerStep [] ⟨[], none⟩ ("x".toList) =
        some { lines := [("x".toList)], settled := none }
    ∧ listenerStep [] ⟨[], none⟩ ("ok".toList) = none :=
  c10_amended_listener [] ⟨[], none⟩ ("9".toList) ("x".toList) (by decide) (by decide)

/-! ## Claim C7 -/

theorem takeWhileAll {α : Type} (p : α → Bool) :
    ∀ (xs : List α), (∀ c ∈ xs, p c = true) → xs.takeWhile p = xs := by
  intro xs h
  induction xs with
  | nil => rfl
  | cons x t ih =>
    have h1 := h x (by simp)
    have h2 := ih (fun c hc => h c (by simp [hc]))
    simp [List.takeWhile_cons, h1, h2]

theorem takeWhileStop {α : Type} (p : α → Bool) :
    ∀ (xs : List α) (y : α) (ys : List α), (∀ c ∈ xs, p c = true) → p y = false →
      (xs ++ y :: ys).takeWhile p = xs := by
  intro xs y ys h hy
  induction xs with
  | nil => simp [List.takeWhile_cons, hy]
  | cons x t ih =>
    have h1 := h x (by simp)
    have h2 := ih (fun c hc => h c (by simp [hc]))
    simp [List.takeWhile_cons, h1, h2]

theorem parseSettingLine_wellformed (code value tail : List Char)
    (hc0 : code ≠ []) (hceq : '=' ∉ code) (hvsp : ' ' ∉ value)
    (htail : tail = [] ∨ ∃ t2, tail = ' ' :: t2) :
    parseSettingLine ('$' :: (code ++ '=' :: (value ++ tail))) = some (code, value) := by
  have hcw : (code ++ '=' :: (value ++ tail)).takeWhile (fun c => c ≠ '=') = code := by
    refine takeWhileStop _ code '=' (value ++ tail) (fun c hc => ?_) (by simp)
    simp
    exact fun he => hceq (he ▸ hc)
  have hvw : (value ++ tail).takeWhile (fun c => c ≠ ' ') = value := by
    cases htail with
    | inl h0 =>
      subst h0
      rw [List.append_nil]
      refine takeWhileAll _ value (fun c hc => ?_)
      simp
      exact fun he => hvsp (he ▸ hc)
    | inr h1 =>
      obtain ⟨t2, h2⟩ := h1
      subst h2
      refine takeWhileStop _ value ' ' t2 (fun c hc => ?_) (by simp)
      simp
      exact fun he => hvsp (he ▸ hc)
  have hne : code.isEmpty = false := by
    cases code with
    | nil => exact absurd rfl hc0
    | cons a t => rfl
  simp only [parseSettingLine, hcw, hne, Bool.false_eq_true, if_false, List.drop_left, hvw]

theorem settingsDecode_fails (catalog : List SettingRow) :
    ∀ (ls : List (List Char)) (l : List Char), l ∈ ls → parseSettingLine l = none →
      ∃ e : PErr, settingsDecode catalog ls = Except.error e := by
  intro ls
  induction ls with
  | nil => intro l hl; exact absurd hl (List.not_mem_nil l)
  | cons hd tl ih =>
    intro l hl hnone
    rcases List.mem_cons.mp hl with he | htl
    · subst he
      exact ⟨⟨settingsErrMsg, some l⟩, by simp only [settingsDecode, hnone]⟩
    · cases hhd : parseSettingLine hd with
      | none => exact ⟨⟨settingsErrMsg, some hd⟩, by simp only [settingsDecode, hhd]⟩
      | some p =>
        obtain ⟨c, v⟩ := p
        obtain ⟨e, he⟩ := ih l htl hnone
        exact ⟨e, by simp only [settingsDecode, hhd, he]⟩

/-- Claim C7: a response line of the shape `$code=value` (non-empty code
without `=`, value running to the first space or end of line) parses to
that code/value pair; the entry is enriched from the setting catalog,
with absent fields on an unknown code; any line that fails the grammar
(such as `$0 10`) makes the whole `settings()` call fail with a
`ProtocolError`; and `$0=10` parses to code `0`, value `10`. -/
theorem c7_settings_grammar :
    (∀ code value tail : List Char, code ≠ [] → '=' ∉ code → ' ' ∉ value →
      (tail = [] ∨ ∃ t2, tail = ' ' :: t2) →
      parseSettingLine ('$' :: (code ++ '=' :: (value ++ tail))) = some (code, value))
    ∧ (∀ (catalog : List SettingRow) (ls : List (List Char)) (l : List Char),
        l ∈ ls → parseSettingLine l = none →
        ∃ e : PErr, settingsDecode catalog ls = Except.error e)
    ∧ (∀ (catalog : List SettingRow) (code value : List Char) (row : SettingRow),
        List.find? (fun r => r.scode == code) catalog = some row →
        mkEntry catalog code value =
          ⟨code, some row.setting, some row.units, some row.sdescription, value⟩)
    ∧ (∀ (catalog : List SettingRow) (code value : List Char),
        List.find? (fun r => r.scode == code) catalog = none →
        mkEntry catalog code value = ⟨code, none, none, none, value⟩)
    ∧ parseSettingLine ("$0 10".toList) = none
    ∧ parseSettingLine ("$0=10".toList) = some (("0".toList), ("10".toList)) := by
  refine ⟨parseSettingLine_wellformed, settingsDecode_fails, ?_, ?_, by decide, by decide⟩
  · intro catalog code value row hrow
    simp [mkEntry, hrow]
  · intro catalog code value hnone
    simp [mkEntry, hnone]

/-- Witness for C7: the well-formed line `$0=10` built from its grammar
parts, and the malformed line `$0 10` failing a one-line `settings()`
call. -/
theorem c7_witness :
    parseSettingLine ('$' :: ((("0".toList) ++ '=' :: (("10".toList) ++ [])))) =
      some (("0".toList), ("10".toList))
    ∧ (∃ e : PErr, settingsDecode [] [("$0 10".toList)] = Except.error e) :=
  ⟨c7_settings_grammar.1 ("0".toList) ("10".toList) [] (by decide) (by decide) (by decide)
      (Or.inl rfl),
   c7_settings_grammar.2.1 [] [("$0 10".toList)] ("$0 10".toList) (by simp) (by decide)⟩

/-! ## Claim C8 -/

theorem applySegment_unknown (r : MachineStatus) (seg : List Char)
    (h : segKey seg ∉ recognizedKeys) : applySegment r seg = r := by
  have h' : ∀ x, x ∈ recognizedKeys → segKey seg ≠ x := fun x hx he => h (he ▸ hx)
  simp only [applySegment]
  split_ifs with h1 h2 h3 h4 h5 h6
  · exact absurd h1 (h' _ (by decide))
  · exact absurd h2 (h' _ (by decide))
  · exact absurd h3 (h' _ (by decide))
  · exact absurd h4 (h' _ (by decide))
  · exact absurd h5 (h' _ (by decide))
  · exact absurd h6 (h' _ (by decide))
  · rfl

theorem statusDecode_malformed (resp : List (List Char)) (s : List Char)
    (hlast : resp.getLast? = some s)
    (h : startsWithL (['<']) s = false ∨ endsWithL (['>']) s = false) :
    ∃ e : PErr, statusDecode resp = Except.error e := by
  have hcond : (s.isEmpty || !startsWithL (['<']) s || !endsWithL (['>']) s) = true := by
    cases h with
    | inl h => simp [h]
    | inr h => simp [h]
  refine ⟨⟨statusErrMsg, some s⟩, ?_⟩
  unfold statusDecode
  rw [hlast]
  simp only [hcond, if_true]

/-- Claim C8: the example status line decodes to state `Idle` with
machine position (0, 1.5, -2) and zero work coordinate offset; segments
with unrecognized keys are ignored without error; and a last line not
wrapped in angle brackets is a `ProtocolError`. -/
theorem c8_status_decoder :
    statusDecode [("<Idle|MPos:0.000,1.500,-2.000|WCO:0.000,0.000,0.000>".toList)] =
        Except.ok { state := ("Idle".toList),
                    machinePosition :=
                      some ⟨some (mkRat 0 1), some (mkRat 3 2), some (mkRat (-2) 1)⟩,
                    workCoordinateOffset :=
                      some ⟨some (mkRat 0 1), some (mkRat 0 1), some (mkRat 0 1)⟩ }
    ∧ (∀ (r : MachineStatus) (seg : List Char),
        segKey seg ∉ recognizedKeys → applySegment r seg = r)
    ∧ (∀ (resp : List (List Char)) (s : List Char), resp.getLast? = some s →
        (startsWithL (['<']) s = false ∨ endsWithL (['>']) s = false) →
        ∃ e : PErr, statusDecode resp = Except.error e) :=
  ⟨by decide, applySegment_unknown, statusDecode_malformed⟩

/-- Witness for C8: an unknown segment key `Foo` leaves the result
untouched, and the unwrapped line `Idle` fails with a `ProtocolError`. -/
theorem c8_witness :
    applySegment { state := [] } ("Foo:1".toList) = { state := [] }
    ∧ (∃ e : PErr, statusDecode [("Idle".toList)] = Except.error e) :=
  ⟨c8_status_decoder.2.1 { state := [] } ("Foo:1".toList) (by decide),
   c8_status_decoder.2.2 [("Idle".toList)] ("Idle".toList) (by decide) (Or.inl (by decide))⟩

/-! ## Claim C5 -/

theorem findDelim_bound : ∀ (b : List Nat) (i : Nat), findDelim b = some i → i + 2 ≤ b.length := by
  intro b
  induction b with
  | nil => intro i h; simp [findDelim] at h
  | cons a t ih =>
    intro i h
    cases t with
    | nil => simp [findDelim] at h
    | cons b2 r =>
      rw [findDelim] at h
      by_cases hd : (a = 13 && b2 = 10) = true
      · rw [if_pos hd] at h
        cases h
        simp
      · rw [if_neg hd] at h
        cases hf : findDelim (b2 :: r) with
        | none => rw [hf] at h; simp at h
        | some j =>
          rw [hf] at h
          simp at h
          have hj := ih j hf
          simp only [List.length_cons] at hj ⊢
          omega

theorem findDelim_append : ∀ (b c : List Nat) (i : Nat),
    findDelim b = some i → findDelim (b ++ c) = some i := by
  intro b
  induction b with
  | nil => intro c i h; simp [findDelim] at h
  | cons a t ih =>
    intro c i h
    cases t with
    | nil => simp [findDelim] at h
    | cons b2 r =>
      rw [findDelim] at h
      rw [List.cons_append, List.cons_append, findDelim]
      by_cases hd : (a = 13 && b2 = 10) = true
      · rw [if_pos hd] at h ⊢
        exact h
      · rw [if_neg hd] at h ⊢
        cases hf : findDelim (b2 :: r) with
        | none => rw [hf] at h; simp at h
        | some j =>
          rw [hf] at h
          have h2 := ih c j hf
          rw [List.cons_append] at h2
          rw [h2]
          exact h

theorem extractLinesF_nodelim (b : List Nat) (h : findDelim b = none) :
    ∀ f, extractLinesF f b = ([], b) := by
  intro f
  cases f with
  | zero => rfl
  | succ g => simp [extractLinesF, h]

theorem extractLinesF_congr : ∀ (f g : Nat) (b : List Nat), b.length ≤ f → b.length ≤ g →
    extractLinesF f b = extractLinesF g b := by
  intro f
  induction f with
  | zero =>
    intro g b hf _
    have hb : b = [] := List.eq_nil_of_length_eq_zero (Nat.le_zero.mp hf)
    subst hb
    rw [extractLinesF_nodelim [] rfl, extractLinesF_nodelim [] rfl]
  | succ f2 ih =>
    intro g b hf hg
    cases g with
    | zero =>
      have hb : b = [] := List.eq_nil_of_length_eq_zero (Nat.le_zero.mp hg)
      subst hb
      rw [extractLinesF_nodelim [] rfl, extractLinesF_nodelim [] rfl]
    | succ g2 =>
      cases hd : findDelim b with
      | none => rw [extractLinesF_nodelim b hd, extractLinesF_nodelim b hd]
      | some i =>
        have hb2 := findDelim_bound b i hd
        have hr : (b.drop (i + 2)).length ≤ f2 := by
          simp only [List.length_drop]; omega
        have hr2 : (b.drop (i + 2)).length ≤ g2 := by
          simp only [List.length_drop]; omega
        simp only [extractLinesF, hd]
        rw [ih g2 _ hr hr2]

theorem extractLines_nodelim (b : List Nat) (h : findDelim b = none) :
    extractLines b = ([], b) :=
  extractLinesF_nodelim b h b.length

theorem extractLines_delim (b : List Nat) (i : Nat) (h : findDelim b = some i) :
    extractLines b =
      ((if (b.take i).isEmpty then (extractLines (b.drop (i + 2))).1
        else b.take i :: (extractLines (b.drop (i + 2))).1),
       (extractLines (b.drop (i + 2))).2) := by
  have hb := findDelim_bound b i h
  unfold extractLines
  obtain ⟨k, hk⟩ : ∃ k, b.length = k + 1 := ⟨b.length - 1, by omega⟩
  rw [hk]
  simp only [extractLinesF, h]
  have hc : extractLinesF k (b.drop (i + 2)) =
      extractLinesF (b.drop (i + 2)).length (b.drop (i + 2)) :=
    extractLinesF_congr k _ _ (by simp only [List.length_drop]; omega) (le_refl _)
  rw [hc]

theorem extractLines_append : ∀ (f : Nat) (b : List Nat), b.length ≤ f → ∀ (c : List Nat),
    extractLines (b ++ c) =
      ((extractLines b).1 ++ (extractLines ((extractLines b).2 ++ c)).1,
       (extractLines ((extractLines b).2 ++ c)).2) := by
  intro f
  induction f with
  | zero =>
    intro b hb c
    have hbe : b = [] := List.eq_nil_of_length_eq_zero (Nat.le_zero.mp hb)
    subst hbe
    rw [extractLines_nodelim [] rfl]
    simp
  | succ f2 ih =>
    intro b hb c
    cases hd : findDelim b with
    | none =>
      rw [extractLines_nodelim b hd]
      simp
    | some i =>
      have hb2 := findDelim_bound b i hd
      have hdc := findDelim_append b c i hd
      have htake : (b ++ c).take i = b.take i :=
        List.take_append_of_le_length (by omega)
      have hdrop : (b ++ c).drop (i + 2) = b.drop (i + 2) ++ c :=
        List.drop_append_of_le_length (by omega)
      have ihr := ih (b.drop (i + 2)) (by simp only [List.length_drop]; omega) c
      rw [extractLines_delim b i hd, extractLines_delim (b ++ c) i hdc, htake, hdrop, ihr]
      by_cases he : (b.take i).isEmpty = true
      · simp [he]
      · simp [he]

theorem extractLinesF_rem : ∀ (f : Nat) (b : List Nat), b.length ≤ f →
    findDelim ((extractLinesF f b).2) = none := by
  intro f
  induction f with
  | zero =>
    intro b hb
    have hbe : b = [] := List.eq_nil_of_length_eq_zero (Nat.le_zero.mp hb)
    subst hbe
    rfl
  | succ f2 ih =>
    intro b hb
    cases hd : findDelim b with
    | none => simp [extractLinesF, hd]
    | some i =>
      have hb2 := findDelim_bound b i hd
      have hr : (b.drop (i + 2)).length ≤ f2 := by
        simp only [List.length_drop]; omega
      simp only [extractLinesF, hd]
      exact ih _ hr

theorem extractLines_rem (b : List Nat) : findDelim ((extractLines b).2) = none :=
  extractLinesF_rem b.length b (le_refl _)

theorem feedChunks_eq : ∀ (cs : List (List Nat)) (r : List Nat), findDelim r = none →
    feedChunks r cs =
      ((extractLines (r ++ cs.flatten)).1, (extractLines (r ++ cs.flatten)).2) := by
  intro cs
  induction cs with
  | nil =>
    intro r hr
    rw [List.flatten_nil, List.append_nil, extractLines_nodelim r hr]
    rfl
  | cons c cs2 ih =>
    intro r hr
    have ihq := ih ((extractLines (r ++ c)).2) (extractLines_rem (r ++ c))
    have hcomp := extractLines_append (r ++ c).length (r ++ c) (le_refl _) cs2.flatten
    simp only [feedChunks, ihq, List.flatten_cons]
    rw [← List.append_assoc, hcomp]

/-- Claim C5: feeding any chunk partition of a byte sequence through
`_write` one chunk at a time dispatches exactly the same ordered lines
(and leaves the same retained remainder) as processing the concatenated
sequence in a single call. -/
theorem c5_chunk_independence (chunks : List (List Nat)) :
    feedChunks [] chunks = extractLines chunks.flatten := by
  rw [feedChunks_eq chunks [] rfl]
  simp

/-! ## Claim C4 -/

theorem pairsFlat_cons (c : Nat) (t : List Nat) :
    pairsFlat (c :: t) = Ev.wrote c :: Ev.settled c :: pairsFlat t := by
  simp [pairsFlat]

theorem pairsFlat_append (xs ys : List Nat) :
    pairsFlat (xs ++ ys) = pairsFlat xs ++ pairsFlat ys := by
  simp [pairsFlat]

theorem mem_of_wrote_pairsFlat : ∀ (cs : List Nat) (B : Nat),
    Ev.wrote B ∈ pairsFlat cs → B ∈ cs := by
  intro cs B h
  induction cs with
  | nil => simp [pairsFlat] at h
  | cons c t ih =>
    rw [pairsFlat_cons] at h
    rcases List.mem_cons.mp h with h1 | h2
    · exact (Ev.wrote.injEq B c ▸ h1) ▸ List.mem_cons_self c t
    · rcases List.mem_cons.mp h2 with h3 | h4
      · exact absurd h3 (by simp)
      · exact List.mem_cons_of_mem c (ih h4)

theorem sublist_pair {α : Type} (X Y Z : List α) (a b : α) :
    List.Sublist [a, b] (X ++ a :: (Y ++ b :: Z)) := by
  have h1 : List.Sublist [a] (X ++ [a]) := List.sublist_append_right X [a]
  have h2 : List.Sublist [b] (Y ++ b :: Z) :=
    (List.Sublist.cons₂ b (List.nil_sublist Z)).trans (List.sublist_append_right Y (b :: Z))
  have h3 := List.Sublist.append h1 h2
  rw [List.append_assoc, List.singleton_append] at h3
  exact h3

theorem split_mem_left {α : Type} :
    ∀ (u xs ys v : List α) (A B : α),
      xs ++ ys = u ++ A :: v → (xs ++ ys).Nodup → B ∈ v → B ∈ xs →
      ∃ xa xb, xs = xa ++ A :: xb ∧ B ∈ xb := by
  intro u
  induction u with
  | nil =>
    intro xs ys v A B heq hnd hBv hBxs
    cases xs with
    | nil => exact absurd hBxs (List.not_mem_nil B)
    | cons x xs2 =>
      rw [List.nil_append, List.cons_append] at heq
      injection heq with hx hrest
      subst hx
      rcases List.mem_cons.mp hBxs with hBx | hB2
      · exfalso
        have hx2 := (List.nodup_cons.mp hnd).1
        refine hx2 ?_
        show x ∈ xs2 ++ ys
        rw [← hBx, hrest]
        exact hBv
      · exact ⟨[], xs2, by simp, hB2⟩
  | cons w u2 ih =>
    intro xs ys v A B heq hnd hBv hBxs
    cases xs with
    | nil => exact absurd hBxs (List.not_mem_nil B)
    | cons x xs2 =>
      rw [List.cons_append, List.cons_append] at heq
      injection heq with hx hrest
      have hnd2 : (xs2 ++ ys).Nodup := (List.nodup_cons.mp hnd).2
      rcases List.mem_cons.mp hBxs with hBx | hB2
      · exfalso
        have hxnot := (List.nodup_cons.mp hnd).1
        refine hxnot ?_
        show x ∈ xs2 ++ ys
        rw [hrest, ← hBx]
        exact List.mem_append_right u2 (List.mem_cons_of_mem A hBv)
      · obtain ⟨xa, xb, hsplit, hBxb⟩ := ih xs2 ys v A B hrest hnd2 hBv hB2
        exact ⟨x :: xa, xb, by rw [hsplit, List.cons_append], hBxb⟩

theorem split_before_holder {α : Type} :
    ∀ (u comp rest v : List α) (A B : α),
      comp ++ B :: rest = u ++ A :: v → (comp ++ B :: rest).Nodup → B ∈ v →
      ∃ ca cb, comp = ca ++ A :: cb := by
  intro u
  induction u with
  | nil =>
    intro comp rest v A B heq hnd hBv
    cases comp with
    | nil =>
      rw [List.nil_append, List.nil_append] at heq
      injection heq with h1 h2
      exfalso
      have hn := (List.nodup_cons.mp (List.nil_append (B :: rest) ▸ hnd)).1
      refine hn ?_
      rw [h2]
      exact hBv
    | cons c comp2 =>
      rw [List.cons_append, List.nil_append] at heq
      injection heq with h1 h2
      exact ⟨[], comp2, by rw [h1]; simp⟩
  | cons w u2 ih =>
    intro comp rest v A B heq hnd hBv
    cases comp with
    | nil =>
      rw [List.nil_append, List.cons_append] at heq
      injection heq with h1 h2
      exfalso
      have hn := (List.nodup_cons.mp (List.nil_append (B :: rest) ▸ hnd)).1
      refine hn ?_
      rw [h2]
      exact List.mem_append_right u2 (List.mem_cons_of_mem A hBv)
    | cons c comp2 =>
      rw [List.cons_append, List.cons_append] at heq
      injection heq with h1 h2
      have hnd2 : (comp2 ++ B :: rest).Nodup := (List.nodup_cons.mp hnd).2
      obtain ⟨ca, cb, hsplit⟩ := ih comp2 rest v A B h2 hnd2 hBv
      exact ⟨c :: ca, cb, by rw [hsplit, List.cons_append]⟩

theorem submits_cons (st : SysStep) (rest : List SysStep) :
    submits (st :: rest) = submits [st] ++ submits rest := by
  cases st <;> simp [submits]

theorem sysInv_step (catalog : List ErrorRow) (subs : List Nat) (s : Sys) (st : SysStep)
    (h : SysInv subs s) : SysInv (subs ++ submits [st]) (sysStep catalog s st) := by
  obtain ⟨completed, hlog, hq, hfree⟩ := h
  cases st with
  | submit c =>
    have hsubm : submits [SysStep.submit c] = [c] := rfl
    rw [hsubm]
    cases hh : s.holder with
    | none =>
      have hw := hfree hh
      have hids : holderIds s = [] := by simp [holderIds, hh]
      have hstep : sysStep catalog s (SysStep.submit c) =
          { s with holder := some (c, []), log := s.log ++ [Ev.wrote c] } := by
        simp only [sysStep, hh]
      rw [hstep]
      refine ⟨completed, ?_, ?_, ?_⟩
      · show s.log ++ [Ev.wrote c] =
          pairsFlat completed ++
            (holderIds { s with holder := some (c, []), log := s.log ++ [Ev.wrote c] }).map Ev.wrote
        rw [hlog, hids]
        simp [holderIds]
      · show completed ++
            holderIds { s with holder := some (c, []), log := s.log ++ [Ev.wrote c] } ++
            s.waiting = subs ++ [c]
        rw [hids] at hq
        rw [hw] at hq ⊢
        simp only [List.append_nil] at hq
        simp [holderIds, hq]
      · intro hcontra
        simp at hcontra
    | some p =>
      have hstep : sysStep catalog s (SysStep.submit c) =
          { s with waiting := s.waiting ++ [c] } := by
        simp only [sysStep, hh]
      rw [hstep]
      refine ⟨completed, ?_, ?_, ?_⟩
      · show s.log = pairsFlat completed ++
            (holderIds { s with waiting := s.waiting ++ [c] }).map Ev.wrote
        rw [hlog]
        simp [holderIds]
      · show completed ++ holderIds { s with waiting := s.waiting ++ [c] } ++
            (s.waiting ++ [c]) = subs ++ [c]
        have : holderIds { s with waiting := s.waiting ++ [c] } = holderIds s := by
          simp [holderIds]
        rw [this, ← hq]
        simp [List.append_assoc]
      · intro hcontra
        simp only [Sys.holder] at hcontra
        rw [hh] at hcontra
        cases hcontra
  | recv line =>
    have hsubm : submits [SysStep.recv line] = [] := rfl
    rw [hsubm, List.append_nil]
    cases hh : s.holder with
    | none =>
      have hstep : sysStep catalog s (SysStep.recv line) = s := by
        simp only [sysStep, hh]
      rw [hstep]
      exact ⟨completed, hlog, hq, hfree⟩
    | some p =>
      obtain ⟨c, ls⟩ := p
      have hids : holderIds s = [c] := by simp [holderIds, hh]
      cases hok : okStep catalog ls line with
      | continueA ls2 =>
        have hstep : sysStep catalog s (SysStep.recv line) =
            { s with holder := some (c, ls2) } := by
          simp only [sysStep, hh, hok]
        rw [hstep]
        refine ⟨completed, ?_, ?_, ?_⟩
        · show s.log = pairsFlat completed ++
              (holderIds { s with holder := some (c, ls2) }).map Ev.wrote
          rw [hlog, hids]
          simp [holderIds]
        · show completed ++ holderIds { s with holder := some (c, ls2) } ++ s.waiting =
              subs
          have : holderIds { s with holder := some (c, ls2) } = [c] := by
            simp [holderIds]
          rw [this, ← hids, hq]
        · intro hcontra
          simp at hcontra
      | resolveA r =>
        have hstep : sysStep catalog s (SysStep.recv line) = admitNext s c := by
          simp only [sysStep, hh, hok]
        rw [hstep]
        cases hw : s.waiting with
        | nil =>
          have hadm : admitNext s c =
              { waiting := [], holder := none, log := s.log ++ [Ev.settled c] } := by
            simp only [admitNext, hw]
          rw [hadm]
          refine ⟨completed ++ [c], ?_, ?_, ?_⟩
          · show s.log ++ [Ev.settled c] = pairsFlat (completed ++ [c]) ++ _
            rw [hlog, hids, pairsFlat_append]
            simp [pairsFlat, holderIds]
          · show (completed ++ [c]) ++ holderIds _ ++ [] = subs
            rw [← hq, hids, hw]
            simp [holderIds]
          · intro _; rfl
        | cons d rest2 =>
          have hadm : admitNext s c =
              { waiting := rest2, holder := some (d, []),
                log := s.log ++ [Ev.settled c, Ev.wrote d] } := by
            simp only [admitNext, hw]
          rw [hadm]
          refine ⟨completed ++ [c], ?_, ?_, ?_⟩
          · show s.log ++ [Ev.settled c, Ev.wrote d] =
                pairsFlat (completed ++ [c]) ++ _
            rw [hlog, hids, pairsFlat_append]
            simp [pairsFlat, holderIds]
          · show (completed ++ [c]) ++ holderIds _ ++ rest2 = subs
            rw [← hq, hids, hw]
            simp [holderIds]
          · intro hcontra
            simp at hcontra
      | rejectA e =>
        have hstep : sysStep catalog s (SysStep.recv line) = admitNext s c := by
          simp only [sysStep, hh, hok]
        rw [hstep]
        cases hw : s.waiting with
        | nil =>
          have hadm : admitNext s c =
              { waiting := [], holder := none, log := s.log ++ [Ev.settled c] } := by
            simp only [admitNext, hw]
          rw [hadm]
          refine ⟨completed ++ [c], ?_, ?_, ?_⟩
          · show s.log ++ [Ev.settled c] = pairsFlat (completed ++ [c]) ++ _
            rw [hlog, hids, pairsFlat_append]
            simp [pairsFlat, holderIds]
          · show (completed ++ [c]) ++ holderIds _ ++ [] = subs
            rw [← hq, hids, hw]
            simp [holderIds]
          · intro _; rfl
        | cons d rest2 =>
          have hadm : admitNext s c =
              { waiting := rest2, holder := some (d, []),
                log := s.log ++ [Ev.settled c, Ev.wrote d] } := by
            simp only [admitNext, hw]
          rw [hadm]
          refine ⟨completed ++ [c], ?_, ?_, ?_⟩
          · show s.log ++ [Ev.settled c, Ev.wrote d] =
                pairsFlat (completed ++ [c]) ++ _
            rw [hlog, hids, pairsFlat_append]
            simp [pairsFlat, holderIds]
          · show (completed ++ [c]) ++ holderIds _ ++ rest2 = subs
            rw [← hq, hids, hw]
            simp [holderIds]
          · intro hcontra
            simp at hcontra

theorem sysInv_run (catalog : List ErrorRow) :
    ∀ (steps : List SysStep) (s : Sys) (subs : List Nat), SysInv subs s →
      SysInv (subs ++ submits steps) (List.foldl (sysStep catalog) s steps) := by
  intro steps
  induction steps with
  | nil =>
    intro s subs h
    simpa [submits] using h
  | cons st rest ih =>
    intro s subs h
    have h1 := sysInv_step catalog subs s st h
    have h2 := ih (sysStep catalog s st) (subs ++ submits [st]) h1
    rw [List.foldl_cons, submits_cons, ← List.append_assoc]
    exact h2

theorem sysInv_init : SysInv [] ⟨[], none, []⟩ :=
  ⟨[], by simp [pairsFlat, holderIds], by simp [holderIds], fun _ => rfl⟩

theorem sysInv_sysRun (catalog : List ErrorRow) (steps : List SysStep) :
    SysInv (submits steps) (sysRun catalog steps) := by
  have h := sysInv_run catalog steps ⟨[], none, []⟩ [] sysInv_init
  simpa [sysRun] using h

/-- Claim C4: for any two commands A and B submitted in that order to the
correlator (mutex admission modelled from the spec as a fair FIFO queue,
since `mutexify/promise` is an external dependency), whenever B's bytes
appear in the event log, A's settlement (its `ok` or `error:` terminal
marker being processed) occurs strictly before B's write — B is never
written before A's response is fully resolved. -/
theorem c4_fifo_serialization (catalog : List ErrorRow) (steps : List SysStep)
    (u v : List Nat) (A B : Nat)
    (hsub : submits steps = u ++ A :: v) (hBv : B ∈ v)
    (hnd : (submits steps).Nodup)
    (hw : Ev.wrote B ∈ (sysRun catalog steps).log) :
    List.Sublist [Ev.settled A, Ev.wrote B] ((sysRun catalog steps).log) := by
  obtain ⟨completed, hlog, hq, hfree⟩ := sysInv_sysRun catalog steps
  rw [hlog] at hw ⊢
  rcases List.mem_append.mp hw with hw1 | hw2
  · -- B is among the completed commands
    have hBc := mem_of_wrote_pairsFlat completed B hw1
    have heq : completed ++ (holderIds (sysRun catalog steps) ++ (sysRun catalog steps).waiting) =
        u ++ A :: v := by
      rw [← List.append_assoc, hq, hsub]
    have hnd2 : (completed ++ (holderIds (sysRun catalog steps) ++
        (sysRun catalog steps).waiting)).Nodup := by
      rw [heq, ← hsub]
      exact hnd
    obtain ⟨xa, xb, hsplit, hBxb⟩ :=
      split_mem_left u completed _ v A B heq hnd2 hBv hBc
    obtain ⟨p, q, hpq⟩ := List.append_of_mem hBxb
    rw [hsplit, hpq]
    have hshape : pairsFlat (xa ++ A :: (p ++ B :: q)) ++
          (holderIds (sysRun catalog steps)).map Ev.wrote =
        (pairsFlat xa ++ [Ev.wrote A]) ++ Ev.settled A ::
          (pairsFlat p ++ Ev.wrote B ::
            (Ev.settled B :: pairsFlat q ++ (holderIds (sysRun catalog steps)).map Ev.wrote)) := by
      simp [pairsFlat, List.append_assoc]
    rw [hshape]
    exact sublist_pair _ _ _ (Ev.settled A) (Ev.wrote B)
  · -- B currently holds the lock
    have hB : B ∈ holderIds (sysRun catalog steps) := by
      rcases List.mem_map.mp hw2 with ⟨x, hx, hxe⟩
      injection hxe with hxB
      rw [← hxB]
      exact hx
    cases hh : (sysRun catalog steps).holder with
    | none => simp [holderIds, hh] at hB
    | some pcl =>
      have hids : holderIds (sysRun catalog steps) = [pcl.1] := by
        simp [holderIds, hh]
      have hBp : pcl.1 = B := by
        rw [hids] at hB
        exact (List.mem_singleton.mp hB).symm
      have heq : completed ++ B :: (sysRun catalog steps).waiting = u ++ A :: v := by
        rw [← hsub, ← hq, hids, hBp]
        simp
      have hnd2 : (completed ++ B :: (sysRun catalog steps).waiting).Nodup := by
        rw [heq, ← hsub]
        exact hnd
      obtain ⟨ca, cb, hsplit⟩ :=
        split_before_holder u completed _ v A B heq hnd2 hBv
      rw [hsplit]
      have hshape : pairsFlat (ca ++ A :: cb) ++
            (holderIds (sysRun catalog steps)).map Ev.wrote =
          (pairsFlat ca ++ [Ev.wrote A]) ++ Ev.settled A ::
            (pairsFlat cb ++ Ev.wrote B :: []) := by
        rw [hids, hBp]
        simp [pairsFlat, List.append_assoc]
      rw [hshape]
      exact sublist_pair _ _ _ (Ev.settled A) (Ev.wrote B)

/-- Witness for C4: commands 1 then 2 submitted back-to-back, with two
`ok` lines; the log settles 1 strictly before writing 2. -/
theorem c4_witness :
    List.Sublist [Ev.settled 1, Ev.wrote 2]
      ((sysRun [] [SysStep.submit 1, SysStep.submit 2,
        SysStep.recv ("ok".toList), SysStep.recv ("ok".toList)]).log) :=
  c4_fifo_serialization []
    [SysStep.submit 1, SysStep.submit 2,
      SysStep.recv ("ok".toList), SysStep.recv ("ok".toList)]
    [] [2] 1 2 (by decide) (by decide) (by decide) (by decide)

end GrblModel
